import Mathlib

/-!
Verification of the background-extraction core of the rad-pinker repository.

The source scripts operate on decoded RGBA rasters.  We embed them shallowly:

* a pixel is a 4-tuple of natural channel values, a raster a width, a height
  and a total pixel lookup function on integer coordinates (Python pushes
  out-of-bounds coordinates onto its BFS queues and discards them at pop
  time, so coordinates are integers, not bounded naturals);
* `math.sqrt`-based color distances are embedded by their squares:  for a
  nonnegative tolerance `t`, `sqrt d < t` holds iff `d < t ^ 2`, so every
  comparison `color_distance c1 c2 < t` of the source is embedded as
  `color_dist_sq c1 c2 < t ^ 2`;
* the float arithmetic of `colorsys.rgb_to_hls` is embedded exactly over the
  rationals, with the float literals 0.1, 0.25, 0.2, 0.12 taken as the exact
  rationals they denote in the source text;
* the unbounded `while queue:` loops are embedded with an explicit fuel
  parameter, together with a proof (the termination claim) that the chosen
  fuel always suffices, so the fueled function equals the source loop.
-/

namespace RadPinker

/-- Pixel model: one RGBA pixel with byte channels (values in [0,255] in the
source; the bound is irrelevant to the claims so channels are plain naturals). -/
structure Pixel where
  r : ℕ
  g : ℕ
  b : ℕ
  a : ℕ
deriving DecidableEq

/-- Color model: an RGB triple, the `pixel[:3]` of the source. -/
structure RGB where
  r : ℕ
  g : ℕ
  b : ℕ
deriving DecidableEq

/-- Projection `pixel[:3]` of the source. -/
def Pixel.rgb (p : Pixel) : RGB := ⟨p.r, p.g, p.b⟩

/-- Coordinate model: the `(x, y)` integer pairs held in the queues and sets. -/
abbrev Coord := ℤ × ℤ

/-- Raster model: width, height and the pixel access `pixels[x, y]`, total on
all of `ℤ × ℤ` because every use in the embedded code is guarded by the same
bounds checks the source performs. -/
structure Raster where
  w : ℕ
  h : ℕ
  pix : Coord → Pixel

/-- Source `color_distance` / `color_dist` (replace_background.py line 20,
smart_transparent.py line 21), embedded by its square:
`sum((a - b) ** 2 for a, b in zip(c1[:3], c2[:3]))`. -/
def color_dist_sq (c1 c2 : RGB) : ℤ :=
  ((c1.r : ℤ) - c2.r) ^ 2 + ((c1.g : ℤ) - c2.g) ^ 2 + ((c1.b : ℤ) - c2.b) ^ 2

/-- Embedded comparison `color_distance(c1, c2) < t` of the source, for a
natural tolerance `t`:  `math.sqrt d < t  ↔  d < t ^ 2`. -/
def color_dist_lt (c1 c2 : RGB) (t : ℕ) : Bool :=
  decide (color_dist_sq c1 c2 < (t : ℤ) ^ 2)

/-- Source `is_dark` (smart_transparent.py line 26):
`pixel[0] < threshold and pixel[1] < threshold and pixel[2] < threshold`.
The source calls it with the default `threshold=50`. -/
def is_dark (p : Pixel) (threshold : ℕ) : Bool :=
  decide (p.r < threshold) && decide (p.g < threshold) && decide (p.b < threshold)

/-- Source `TOLERANCE = 45` of replace_background.py. -/
def TOLERANCE : ℕ := 45

/-- Source `FRINGE_TOLERANCE = 55` of replace_background.py. -/
def FRINGE_TOLERANCE : ℕ := 55

/-- Source `HUE_TOLERANCE = 0.12` of replace_background.py, as an exact
rational. -/
def HUE_TOLERANCE : ℚ := 12 / 100

/-- Embedding of `colorsys.rgb_to_hls` from the Python standard library over
exact rationals, argument and result order as in the library:  inputs are the
three channels scaled to [0,1], output is `(h, l, s)`.  The float remainder
`h % 1.0` is the fractional part `Int.fract`. -/
def rgb_to_hls (r g b : ℚ) : ℚ × ℚ × ℚ :=
  let maxc := max r (max g b)
  let minc := min r (min g b)
  let l := (minc + maxc) / 2
  if minc = maxc then (0, l, 0)
  else
    let rangec := maxc - minc
    let s := if l ≤ 1 / 2 then rangec / (maxc + minc) else rangec / (2 - maxc - minc)
    let rc := (maxc - r) / rangec
    let gc := (maxc - g) / rangec
    let bc := (maxc - b) / rangec
    let h0 := if r = maxc then bc - gc else if g = maxc then 2 + rc - gc else 4 + gc - rc
    (Int.fract (h0 / 6), l, s)

/-- Lightness of an RGB color, the `l` of `colorsys.rgb_to_hls(r/255, g/255, b/255)`. -/
def lightness (c : RGB) : ℚ := (rgb_to_hls ((c.r : ℚ) / 255) ((c.g : ℚ) / 255) ((c.b : ℚ) / 255)).2.1

/-- Saturation of an RGB color, the `s` of `colorsys.rgb_to_hls(r/255, g/255, b/255)`. -/
def saturation (c : RGB) : ℚ := (rgb_to_hls ((c.r : ℚ) / 255) ((c.g : ℚ) / 255) ((c.b : ℚ) / 255)).2.2

/-- Source `rgb_to_hue` (replace_background.py line 24): scale the channels to
[0,1], convert to HLS, return `None` when the saturation is below 0.1, the hue
otherwise. -/
def rgb_to_hue (c : RGB) : Option ℚ :=
  let hls := rgb_to_hls ((c.r : ℚ) / 255) ((c.g : ℚ) / 255) ((c.b : ℚ) / 255)
  if hls.2.2 < 1 / 10 then none else some hls.1

/-- Source `hue_distance` (replace_background.py line 32) on two defined hues:
`min(diff, 1.0 - diff)` with `diff = abs(h1 - h2)`.  The `None` cases of the
source (answer 1.0) never reach the comparison against `HUE_TOLERANCE` because
`is_fringe_pixel` tests both hues for `None` first; they are kept in
`hue_distance_opt` below. -/
def hue_distance (h1 h2 : ℚ) : ℚ := min |h1 - h2| (1 - |h1 - h2|)

/-- Source `hue_distance` including the `None` branches. -/
def hue_distance_opt (h1 h2 : Option ℚ) : ℚ :=
  match h1, h2 with
  | some a, some b => hue_distance a b
  | _, _ => 1

/-- Source `is_target_color` (replace_background.py line 39): a fully
transparent pixel never matches; otherwise match means RGB distance below the
tolerance. -/
def is_target_color (p : Pixel) (target : RGB) (tolerance : ℕ) : Bool :=
  if p.a = 0 then false else color_dist_lt p.rgb target tolerance

/-- Source `is_fringe_pixel` (replace_background.py line 45): a transparent
pixel is never fringe; a pixel within distance 40 of the background always is;
a pixel within `FRINGE_TOLERANCE` is fringe when both hues are defined, they
are within `HUE_TOLERANCE` of each other, and saturation and lightness clear
the floors 0.25 and 0.2. -/
def is_fringe_pixel (p : Pixel) (bg_color : RGB) (bg_hue : Option ℚ) : Bool :=
  if p.a = 0 then false
  else if color_dist_lt p.rgb bg_color 40 then true
  else if color_dist_lt p.rgb bg_color FRINGE_TOLERANCE then
    match rgb_to_hue p.rgb, bg_hue with
    | some pixel_hue, some bh =>
        if hue_distance pixel_hue bh < HUE_TOLERANCE then
          decide (1 / 4 < saturation p.rgb) && decide (1 / 5 < lightness p.rgb)
        else false
    | _, _ => false
  else false

/-- Source `YELLOW_TARGET` of remove_yellow_dots.py. -/
def YELLOW_TARGET : RGB := ⟨252, 225, 132⟩

/-- Source `is_yellow` (remove_yellow_dots.py line 19): opaque and within
distance 40 of `YELLOW_TARGET`. -/
def is_yellow (p : Pixel) : Bool :=
  if p.a = 0 then false else color_dist_lt p.rgb YELLOW_TARGET 40

/-- Source `COLORS_TO_REMOVE` of cleanup_dots.py; the per-color second
components are carried but, as in the source, never read. -/
def COLORS_TO_REMOVE : List (RGB × ℕ) :=
  [(⟨252, 225, 132⟩, 50), (⟨255, 249, 225⟩, 50), (⟨62, 130, 255⟩, 50), (⟨21, 241, 179⟩, 50)]

/-- Source `matches_any_target` (cleanup_dots.py line 26): opaque and within
the global `TOLERANCE = 45` of some entry of `COLORS_TO_REMOVE`. -/
def matches_any_target (p : Pixel) : Bool :=
  if p.a = 0 then false
  else COLORS_TO_REMOVE.any fun tc => color_dist_lt p.rgb tc.1 TOLERANCE

/-- Bounds test of the flood-fill loops:
`x < 0 or x >= width or y < 0 or y >= height` negated. -/
def inBounds (w h : ℕ) (c : Coord) : Bool :=
  decide (0 ≤ c.1) && decide (c.1 < (w : ℤ)) && decide (0 ≤ c.2) && decide (c.2 < (h : ℤ))

/-- Neighbor list pushed by the flood fills (4-connected, push order of the
source: right, left, down, up). -/
def nbrs (c : Coord) : List Coord :=
  [(c.1 + 1, c.2), (c.1 - 1, c.2), (c.1, c.2 + 1), (c.1, c.2 - 1)]

/-- Shared shape of the two flood-fill loops (smart_transparent.py lines
83-100, replace_background.py lines 152-173): pop, skip if visited, skip if
out of bounds, skip if the pixel predicate rejects, otherwise mark visited
(the removal set and the visited set of the source always receive the same
elements, so one set serves as both) and push the four neighbors.  The fuel
argument makes the loop structurally recursive; the termination theorem below
shows the fuel used by the definitions never runs out, so `none` never
actually arises. -/
def bfsRun (inB ok : Coord → Bool) : ℕ → List Coord → Finset Coord → Option (Finset Coord)
  | _, [], vis => some vis
  | 0, _ :: _, _ => none
  | fuel + 1, c :: q, vis =>
      if c ∈ vis then bfsRun inB ok fuel q vis
      else if inB c = false then bfsRun inB ok fuel q vis
      else if ok c = false then bfsRun inB ok fuel q vis
      else bfsRun inB ok fuel (q ++ nbrs c) (insert c vis)

/-- A coordinate the loop may expand: in bounds and accepted by the pixel
predicate. -/
def Good (inB ok : Coord → Bool) (c : Coord) : Prop := inB c = true ∧ ok c = true

/-- Grid adjacency: `b` is one of the four neighbors of `a`. -/
def Adj (a b : Coord) : Prop := b ∈ nbrs a

/-- One step of a flood-fill chain: move to an adjacent coordinate that the
loop may expand. -/
def GoodStep (inB ok : Coord → Bool) (a b : Coord) : Prop := Good inB ok b ∧ Adj a b

/-- Reachability from a seed list through a chain of expandable coordinates
(the seed itself included). -/
def ReachFrom (inB ok : Coord → Bool) (seeds : List Coord) (c : Coord) : Prop :=
  ∃ s ∈ seeds, Good inB ok s ∧ Relation.ReflTransGen (GoodStep inB ok) s c

/-- Finset of in-bounds coordinates of a w by h raster. -/
def gridFinset (w h : ℕ) : Finset Coord := Finset.Ico (0 : ℤ) w ×ˢ Finset.Ico (0 : ℤ) h

/-- Border coordinates as enqueued by smart_transparent.py lines 76-81: for
each `x` the top and bottom cells, then for each `y` the left and right cells,
all unconditionally. -/
def border_seeds_all (w h : ℕ) : List Coord :=
  ((List.range w).flatMap fun (x : ℕ) => [((x : ℤ), 0), ((x : ℤ), (h : ℤ) - 1)]) ++
    ((List.range h).flatMap fun (y : ℕ) => [(0, (y : ℤ)), ((w : ℤ) - 1, (y : ℤ))])

/-- Border predicate: an in-bounds coordinate on the first or last column or
row of the raster. -/
def IsBorder (w h : ℕ) (c : Coord) : Prop :=
  inBounds w h c = true ∧ (c.1 = 0 ∨ c.1 = (w : ℤ) - 1 ∨ c.2 = 0 ∨ c.2 = (h : ℤ) - 1)

/-- Pixel test of the smart_transparent.py flood-fill body: not dark (the
outline wall) and within the tolerance of the background color (the inner
`is_bg`).  The source performs the two rejections as successive `continue`
statements; their conjunction is the condition for expanding a cell. -/
def smart_ok (img : Raster) (bg : RGB) (tolerance threshold : ℕ) (c : Coord) : Bool :=
  !is_dark (img.pix c) threshold && color_dist_lt (img.pix c).rgb bg tolerance

/-- Fuel that provably outlasts the flood-fill loop: one unit per initial
queue entry plus five per raster cell. -/
def flood_fuel (w h : ℕ) (seeds : List Coord) : ℕ := seeds.length + 5 * (w * h)

/-- Flood-fill stage of `make_transparent` (smart_transparent.py lines
71-100) as the generic loop run on all border seeds with the dark-pixel wall.
The dark threshold is the `is_dark` parameter, 50 at the call site. -/
def make_transparent_flood_run (img : Raster) (bg : RGB) (tolerance threshold : ℕ) :
    Option (Finset Coord) :=
  bfsRun (inBounds img.w img.h) (smart_ok img bg tolerance threshold)
    (flood_fuel img.w img.h (border_seeds_all img.w img.h)) (border_seeds_all img.w img.h) ∅

/-- Resulting `to_remove` set of the smart_transparent.py flood fill. -/
def make_transparent_flood (img : Raster) (bg : RGB) (tolerance threshold : ℕ) : Finset Coord :=
  (make_transparent_flood_run img bg tolerance threshold).getD ∅

/-- Border seeds of replace_background.py lines 141-150: the same traversal,
but a border cell is enqueued only if `is_target_color` accepts it. -/
def border_seeds_matching (img : Raster) (bg : RGB) : List Coord :=
  ((List.range img.w).flatMap fun (x : ℕ) =>
      (if is_target_color (img.pix ((x : ℤ), 0)) bg TOLERANCE then [((x : ℤ), 0)] else []) ++
        (if is_target_color (img.pix ((x : ℤ), (img.h : ℤ) - 1)) bg TOLERANCE then
          [((x : ℤ), (img.h : ℤ) - 1)] else [])) ++
    ((List.range img.h).flatMap fun (y : ℕ) =>
      (if is_target_color (img.pix (0, (y : ℤ))) bg TOLERANCE then [(0, (y : ℤ))] else []) ++
        (if is_target_color (img.pix ((img.w : ℤ) - 1, (y : ℤ))) bg TOLERANCE then
          [((img.w : ℤ) - 1, (y : ℤ))] else []))

/-- Source `flood_fill_background` (replace_background.py lines 129-173) as
the generic loop: seeds are the matching border cells, the expansion test is
`is_target_color` alone (this flood fill has no dark-pixel wall). -/
def flood_fill_background_run (img : Raster) (bg : RGB) : Option (Finset Coord) :=
  bfsRun (inBounds img.w img.h) (fun c => is_target_color (img.pix c) bg TOLERANCE)
    (flood_fuel img.w img.h (border_seeds_matching img bg)) (border_seeds_matching img bg) ∅

/-- Resulting `background` set of `flood_fill_background`. -/
def flood_fill_background (img : Raster) (bg : RGB) : Finset Coord :=
  (flood_fill_background_run img bg).getD ∅

/-- Neighbor offsets examined by `remove_fringe` (replace_background.py line
192): 8-connected, in source order. -/
def dirs8 : List Coord :=
  [(-1, 0), (1, 0), (0, -1), (0, 1), (-1, -1), (-1, 1), (1, -1), (1, 1)]

/-- Neighbor offsets examined by the smart_transparent.py fringe pass (line
108): 4-connected, in source order. -/
def dirs4 : List Coord := [(-1, 0), (1, 0), (0, -1), (0, 1)]

/-- One fringe pass body (replace_background.py lines 188-198,
smart_transparent.py lines 106-114): the set of in-bounds neighbors of the
current removal set that are not yet removed and pass the fringe test. -/
def fringe_candidates (w h : ℕ) (dirs : List Coord) (fr : Coord → Bool)
    (removed : Finset Coord) : Finset Coord :=
  removed.biUnion fun c =>
    ((dirs.map fun d => (c.1 + d.1, c.2 + d.2)).filter fun n =>
      inBounds w h n && !decide (n ∈ removed) && fr n).toFinset

/-- The fringe pass loop (`for _ in range(passes): ... if not fringe: break;
removed.update(fringe)`), parameterized by the candidate function of one
pass. -/
def fringe_loop (cand : Finset Coord → Finset Coord) : ℕ → Finset Coord → Finset Coord
  | 0, removed => removed
  | n + 1, removed =>
      let fringe := cand removed
      if fringe = ∅ then removed else fringe_loop cand n (removed ∪ fringe)

/-- Source `remove_fringe` (replace_background.py lines 175-205) with the
pass count as a parameter; the source text hard-codes `range(1)`. -/
def remove_fringe_passes (img : Raster) (background_pixels : Finset Coord) (bg : RGB)
    (passes : ℕ) : Finset Coord :=
  fringe_loop
    (fringe_candidates img.w img.h dirs8 fun n => is_fringe_pixel (img.pix n) bg (rgb_to_hue bg))
    passes background_pixels

/-- Source `remove_fringe` exactly as written: a single pass. -/
def remove_fringe (img : Raster) (background_pixels : Finset Coord) (bg : RGB) : Finset Coord :=
  remove_fringe_passes img background_pixels bg 1

/-- Source `is_fringe` of smart_transparent.py line 68: within the fringe
tolerance and not dark (threshold 50, the `is_dark` default). -/
def smart_is_fringe (img : Raster) (bg : RGB) (fringe_tolerance : ℕ) (c : Coord) : Bool :=
  color_dist_lt (img.pix c).rgb bg fringe_tolerance && !is_dark (img.pix c) 50

/-- Fringe stage of `make_transparent` (smart_transparent.py lines 104-120)
with the pass count as a parameter; the source text hard-codes `range(2)`. -/
def make_transparent_fringe (img : Raster) (to_remove : Finset Coord) (bg : RGB)
    (fringe_tolerance passes : ℕ) : Finset Coord :=
  fringe_loop (fringe_candidates img.w img.h dirs4 (smart_is_fringe img bg fringe_tolerance))
    passes to_remove

/-- Scan order of the cluster finders (remove_yellow_dots.py lines 31-32,
cleanup_dots.py lines 42-43): `for y in range(height): for x in range(width)`. -/
def scan_coords (w h : ℕ) : List Coord :=
  (List.range h).flatMap fun (y : ℕ) => (List.range w).map fun (x : ℕ) => ((x : ℤ), (y : ℤ))

/-- Fuel for one in-cluster BFS: one initial queue entry plus five per cell. -/
def cluster_fuel (w h : ℕ) : ℕ := 1 + 5 * (w * h)

/-- Cluster scan shared by `find_yellow_clusters` (remove_yellow_dots.py lines
24-60) and `find_colored_clusters` (cleanup_dots.py lines 35-71): walk the
scan order; at an unvisited matching cell run the same BFS as the flood fills
seeded with that one cell (the visited set is shared across clusters), and
record the newly visited cells as one cluster when, as the source guards,
they are non-empty.  Returns the cluster list and the final visited set. -/
def clusters_loop (inB ok : Coord → Bool) (fuel : ℕ) :
    List Coord → Finset Coord → List (Finset Coord) × Finset Coord
  | [], vis => ([], vis)
  | c :: rest, vis =>
      if c ∈ vis then clusters_loop inB ok fuel rest vis
      else if ok c = false then clusters_loop inB ok fuel rest vis
      else
        let vis2 := (bfsRun inB ok fuel [c] vis).getD vis
        let cluster := vis2 \ vis
        let p := clusters_loop inB ok fuel rest vis2
        (if cluster = ∅ then p.1 else cluster :: p.1, p.2)

/-- Source `find_yellow_clusters` (remove_yellow_dots.py lines 24-60). -/
def find_yellow_clusters (img : Raster) : List (Finset Coord) :=
  (clusters_loop (inBounds img.w img.h) (fun c => is_yellow (img.pix c))
    (cluster_fuel img.w img.h) (scan_coords img.w img.h) ∅).1

/-- Source `find_colored_clusters` (cleanup_dots.py lines 35-71). -/
def find_colored_clusters (img : Raster) : List (Finset Coord) :=
  (clusters_loop (inBounds img.w img.h) (fun c => matches_any_target (img.pix c))
    (cluster_fuel img.w img.h) (scan_coords img.w img.h) ∅).1

/-- Pixel state after the mutation loop of `cleanup_image` (cleanup_dots.py
lines 81-85): a pixel becomes fully transparent exactly when it lies in some
cluster of size at most the threshold, and is untouched otherwise.  The
source mutates in place after the cluster list is fully computed, so the
functional form is this membership test. -/
def cleanup_image_pixels (img : Raster) (max_cluster_size : ℕ) : Coord → Pixel := fun c =>
  if (find_colored_clusters img).any fun cl =>
      decide (cl.card ≤ max_cluster_size) && decide (c ∈ cl) then ⟨0, 0, 0, 0⟩
  else img.pix c

/-- Pixel state after the mutation loop of `remove_small_clusters`
(remove_yellow_dots.py lines 70-76), functional form as above. -/
def remove_small_clusters_pixels (img : Raster) (max_cluster_size : ℕ) : Coord → Pixel := fun c =>
  if (find_yellow_clusters img).any fun cl =>
      decide (cl.card ≤ max_cluster_size) && decide (c ∈ cl) then ⟨0, 0, 0, 0⟩
  else img.pix c

/-- Edge sample list of `detect_background_color` (replace_background.py
lines 100-127): top and bottom cells for each column, then left and right
cells for each row, keeping only pixels with alpha above zero.  Cells lying
on two traversals (the corner cells, and whole rows or columns when the
raster is one or two cells wide or tall) contribute one sample per
traversal. -/
def edge_colors (img : Raster) : List RGB :=
  ((List.range img.w).flatMap fun (x : ℕ) =>
    (if 0 < (img.pix ((x : ℤ), 0)).a then [(img.pix ((x : ℤ), 0)).rgb] else []) ++
      (if 0 < (img.pix ((x : ℤ), (img.h : ℤ) - 1)).a then
        [(img.pix ((x : ℤ), (img.h : ℤ) - 1)).rgb] else [])) ++
    ((List.range img.h).flatMap fun (y : ℕ) =>
      (if 0 < (img.pix (0, (y : ℤ))).a then [(img.pix (0, (y : ℤ))).rgb] else []) ++
        (if 0 < (img.pix ((img.w : ℤ) - 1, (y : ℤ))).a then
          [(img.pix ((img.w : ℤ) - 1, (y : ℤ))).rgb] else []))

/-- Distinct colors of a sample list in first-occurrence order: the key order
of a Python `Counter` built from the list. -/
def insertion_keys (l : List RGB) : List RGB :=
  l.foldl (fun acc a => if a ∈ acc then acc else acc ++ [a]) []

/-- Embedding of `Counter(l).most_common(1)[0][0]`: `most_common` sorts the
counter items by count, descending and stable, so the winner is the first key
in insertion order whose count no later key strictly exceeds. -/
def most_common (l : List RGB) : Option RGB :=
  match insertion_keys l with
  | [] => none
  | k :: ks => some (ks.foldl (fun best c => if l.count best < l.count c then c else best) k)

/-- Source `detect_background_color` (replace_background.py lines 100-127):
`None` when no opaque edge sample exists, otherwise the most common edge
sample. -/
def detect_background_color (img : Raster) : Option RGB :=
  if edge_colors img = [] then none else most_common (edge_colors img)

/-- Specification-side list for the claim about the estimator: the color of
each non-fully-transparent border pixel with every border cell counted once
(in scan order), unlike `edge_colors` which samples corner cells twice. -/
def border_pixel_colors (img : Raster) : List RGB :=
  (((scan_coords img.w img.h).filter fun c =>
      decide (c.1 = 0 ∨ c.1 = (img.w : ℤ) - 1 ∨ c.2 = 0 ∨ c.2 = (img.h : ℤ) - 1) &&
        !decide ((img.pix c).a = 0)).map fun c => (img.pix c).rgb)

/-- Specification-side restatement of the two fringe rules of the claim,
stated without the transparency guard that the source applies first: rule (a)
is the tight distance 40; rule (b) is distance below `FRINGE_TOLERANCE`, not
an outline pixel, hue defined and within `HUE_TOLERANCE` of the (defined)
background hue, and saturation and lightness above the floors 0.25 and 0.2. -/
def fringe_two_rules (p : Pixel) (bg : RGB) : Prop :=
  color_dist_lt p.rgb bg 40 = true ∨
    (color_dist_lt p.rgb bg FRINGE_TOLERANCE = true ∧ is_dark p 50 = false ∧
      hue_distance_opt (rgb_to_hue p.rgb) (rgb_to_hue bg) < HUE_TOLERANCE ∧
      1 / 4 < saturation p.rgb ∧ 1 / 5 < lightness p.rgb)

instance (p : Pixel) (bg : RGB) : Decidable (fringe_two_rules p bg) := by
  unfold fringe_two_rules
  exact inferInstance

/-- Concrete 1 by 1 raster holding one opaque dark gray pixel. -/
def imgDark1 : Raster := ⟨1, 1, fun _ => ⟨10, 10, 10, 255⟩⟩

/-- Concrete 1 by 1 raster holding one opaque white pixel. -/
def imgWhite1 : Raster := ⟨1, 1, fun _ => ⟨255, 255, 255, 255⟩⟩

/-- Concrete 1 by 1 raster holding one fully transparent pixel. -/
def imgTrans1 : Raster := ⟨1, 1, fun _ => ⟨0, 0, 0, 0⟩⟩

/-- Concrete 2 by 1 raster: one yellow pixel beside one black pixel. -/
def imgYellowDot : Raster :=
  ⟨2, 1, fun c => if c = (0, 0) then ⟨252, 225, 132, 255⟩ else ⟨0, 0, 0, 255⟩⟩

/-- Pixels of the 4 by 4 estimator raster: corners one color, five border
non-corner cells a second color, the three remaining border cells a third,
interior a fourth. -/
def img4pix (c : Coord) : Pixel :=
  if c = (0, 0) ∨ c = (3, 0) ∨ c = (0, 3) ∨ c = (3, 3) then ⟨1, 1, 1, 255⟩
  else if c = (1, 0) ∨ c = (2, 0) ∨ c = (0, 1) ∨ c = (3, 1) ∨ c = (0, 2) then ⟨2, 2, 2, 255⟩
  else if c = (3, 2) ∨ c = (1, 3) ∨ c = (2, 3) then ⟨3, 3, 3, 255⟩
  else ⟨9, 9, 9, 255⟩

/-- Concrete 4 by 4 raster on which the estimator's corner double-sampling is
visible. -/
def img4 : Raster := ⟨4, 4, img4pix⟩

lemma mem_gridFinset {w h : ℕ} {c : Coord} :
    c ∈ gridFinset w h ↔ inBounds w h c = true := by
  simp [gridFinset, inBounds, Finset.mem_product, and_assoc]

lemma card_gridFinset (w h : ℕ) : (gridFinset w h).card = w * h := by
  simp [gridFinset, Int.card_Ico]

lemma reach_good {inB ok : Coord → Bool} {seeds : List Coord} {c : Coord}
    (hr : ReachFrom inB ok seeds c) : Good inB ok c := by
  obtain ⟨s, _, hs, hpath⟩ := hr
  induction hpath with
  | refl => exact hs
  | tail _ hstep _ => exact hstep.1

lemma bfs_mono (inB ok : Coord → Bool) :
    ∀ fuel (queue : List Coord) (vis res : Finset Coord),
      bfsRun inB ok fuel queue vis = some res → vis ⊆ res := by
  intro fuel
  induction fuel with
  | zero =>
      intro queue vis res hrun
      cases queue with
      | nil => cases hrun; exact fun _ hx => hx
      | cons c q => exact absurd hrun (by simp [bfsRun])
  | succ n ih =>
      intro queue vis res hrun
      cases queue with
      | nil => cases hrun; exact fun _ hx => hx
      | cons c q =>
          rw [bfsRun] at hrun
          split_ifs at hrun with h1 h2 h3
          · exact ih q vis res hrun
          · exact ih q vis res hrun
          · exact ih q vis res hrun
          · exact fun x hx => ih _ _ _ hrun (Finset.mem_insert_of_mem hx)

lemma bfs_res_good (inB ok : Coord → Bool) :
    ∀ fuel (queue : List Coord) (vis res : Finset Coord),
      bfsRun inB ok fuel queue vis = some res →
      ∀ c ∈ res, c ∈ vis ∨ Good inB ok c := by
  intro fuel
  induction fuel with
  | zero =>
      intro queue vis res hrun
      cases queue with
      | nil => cases hrun; exact fun c hc => Or.inl hc
      | cons c q => exact absurd hrun (by simp [bfsRun])
  | succ n ih =>
      intro queue vis res hrun
      cases queue with
      | nil => cases hrun; exact fun c hc => Or.inl hc
      | cons c q =>
          rw [bfsRun] at hrun
          split_ifs at hrun with h1 h2 h3
          · exact ih q vis res hrun
          · exact ih q vis res hrun
          · exact ih q vis res hrun
          · intro x hx
            rcases ih _ _ _ hrun x hx with hx' | hx'
            · rcases Finset.mem_insert.mp hx' with rfl | hx''
              · exact Or.inr ⟨by simpa using h2, by simpa using h3⟩
              · exact Or.inl hx''
            · exact Or.inr hx'

lemma bfs_sound (inB ok : Coord → Bool) (seeds : List Coord) :
    ∀ fuel (queue : List Coord) (vis res : Finset Coord),
      (∀ v ∈ vis, ReachFrom inB ok seeds v) →
      (∀ q ∈ queue, q ∈ seeds ∨ ∃ v ∈ vis, Adj v q) →
      bfsRun inB ok fuel queue vis = some res →
      ∀ c ∈ res, ReachFrom inB ok seeds c := by
  intro fuel
  induction fuel with
  | zero =>
      intro queue vis res hvis hq hrun
      cases queue with
      | nil => cases hrun; exact hvis
      | cons c q => exact absurd hrun (by simp [bfsRun])
  | succ n ih =>
      intro queue vis res hvis hq hrun
      cases queue with
      | nil => cases hrun; exact hvis
      | cons c q =>
          rw [bfsRun] at hrun
          split_ifs at hrun with h1 h2 h3
          · exact ih q vis res hvis (fun x hx => hq x (List.mem_cons_of_mem c hx)) hrun
          · exact ih q vis res hvis (fun x hx => hq x (List.mem_cons_of_mem c hx)) hrun
          · exact ih q vis res hvis (fun x hx => hq x (List.mem_cons_of_mem c hx)) hrun
          · have hgc : Good inB ok c := ⟨by simpa using h2, by simpa using h3⟩
            have hreach_c : ReachFrom inB ok seeds c := by
              rcases hq c (List.mem_cons_self c q) with hcs | ⟨v, hv, hadj⟩
              · exact ⟨c, hcs, hgc, Relation.ReflTransGen.refl⟩
              · obtain ⟨s, hs, hgs, hpath⟩ := hvis v hv
                exact ⟨s, hs, hgs, hpath.tail ⟨hgc, hadj⟩⟩
            refine ih _ _ _ ?_ ?_ hrun
            · intro x hx
              rcases Finset.mem_insert.mp hx with rfl | hx'
              · exact hreach_c
              · exact hvis x hx'
            · intro x hx
              rcases List.mem_append.mp hx with hx' | hx'
              · rcases hq x (List.mem_cons_of_mem c hx') with h | ⟨v, hv, hadj⟩
                · exact Or.inl h
                · exact Or.inr ⟨v, Finset.mem_insert_of_mem hv, hadj⟩
              · exact Or.inr ⟨c, Finset.mem_insert_self c vis, hx'⟩

lemma bfs_complete (inB ok : Coord → Bool) (seeds : List Coord) :
    ∀ fuel (queue : List Coord) (vis res : Finset Coord),
      (∀ v ∈ vis, ∀ x, Adj v x → Good inB ok x → x ∈ vis ∨ x ∈ queue) →
      (∀ s ∈ seeds, Good inB ok s → s ∈ vis ∨ s ∈ queue) →
      bfsRun inB ok fuel queue vis = some res →
      (∀ s ∈ seeds, Good inB ok s → s ∈ res) ∧
        (∀ v ∈ res, ∀ x, Adj v x → Good inB ok x → x ∈ res) := by
  intro fuel
  induction fuel with
  | zero =>
      intro queue vis res hcl hs hrun
      cases queue with
      | nil =>
          cases hrun
          refine ⟨fun s hsm hg => ?_, fun v hv x hadj hg => ?_⟩
          · rcases hs s hsm hg with h | h
            · exact h
            · exact absurd h (List.not_mem_nil _)
          · rcases hcl v hv x hadj hg with h | h
            · exact h
            · exact absurd h (List.not_mem_nil _)
      | cons c q => exact absurd hrun (by simp [bfsRun])
  | succ n ih =>
      intro queue vis res hcl hs hrun
      cases queue with
      | nil =>
          cases hrun
          refine ⟨fun s hsm hg => ?_, fun v hv x hadj hg => ?_⟩
          · rcases hs s hsm hg with h | h
            · exact h
            · exact absurd h (List.not_mem_nil _)
          · rcases hcl v hv x hadj hg with h | h
            · exact h
            · exact absurd h (List.not_mem_nil _)
      | cons c q =>
          rw [bfsRun] at hrun
          split_ifs at hrun with h1 h2 h3
          · refine ih q vis res ?_ ?_ hrun
            · intro v hv x hadj hg
              rcases hcl v hv x hadj hg with h | h
              · exact Or.inl h
              · rcases List.mem_cons.mp h with rfl | h'
                · exact Or.inl h1
                · exact Or.inr h'
            · intro s hsm hg
              rcases hs s hsm hg with h | h
              · exact Or.inl h
              · rcases List.mem_cons.mp h with rfl | h'
                · exact Or.inl h1
                · exact Or.inr h'
          · refine ih q vis res ?_ ?_ hrun
            · intro v hv x hadj hg
              rcases hcl v hv x hadj hg with h | h
              · exact Or.inl h
              · rcases List.mem_cons.mp h with rfl | h'
                · exact absurd hg.1 (by simp [h2])
                · exact Or.inr h'
            · intro s hsm hg
              rcases hs s hsm hg with h | h
              · exact Or.inl h
              · rcases List.mem_cons.mp h with rfl | h'
                · exact absurd hg.1 (by simp [h2])
                · exact Or.inr h'
          · refine ih q vis res ?_ ?_ hrun
            · intro v hv x hadj hg
              rcases hcl v hv x hadj hg with h | h
              · exact Or.inl h
              · rcases List.mem_cons.mp h with rfl | h'
                · exact absurd hg.2 (by simp [h3])
                · exact Or.inr h'
            · intro s hsm hg
              rcases hs s hsm hg with h | h
              · exact Or.inl h
              · rcases List.mem_cons.mp h with rfl | h'
                · exact absurd hg.2 (by simp [h3])
                · exact Or.inr h'
          · refine ih _ _ _ ?_ ?_ hrun
            · intro v hv x hadj hg
              rcases Finset.mem_insert.mp hv with rfl | hv'
              · exact Or.inr (List.mem_append.mpr (Or.inr hadj))
              · rcases hcl v hv' x hadj hg with h | h
                · exact Or.inl (Finset.mem_insert_of_mem h)
                · rcases List.mem_cons.mp h with rfl | h'
                  · exact Or.inl (Finset.mem_insert_self x vis)
                  · exact Or.inr (List.mem_append.mpr (Or.inl h'))
            · intro s hsm hg
              rcases hs s hsm hg with h | h
              · exact Or.inl (Finset.mem_insert_of_mem h)
              · rcases List.mem_cons.mp h with rfl | h'
                · exact Or.inl (Finset.mem_insert_self s vis)
                · exact Or.inr (List.mem_append.mpr (Or.inl h'))

lemma bfs_reach_mem {inB ok : Coord → Bool} {seeds : List Coord} {res : Finset Coord}
    (hseeds : ∀ s ∈ seeds, Good inB ok s → s ∈ res)
    (hclosed : ∀ v ∈ res, ∀ x, Adj v x → Good inB ok x → x ∈ res)
    {c : Coord} (hr : ReachFrom inB ok seeds c) : c ∈ res := by
  obtain ⟨s, hsm, hgs, hpath⟩ := hr
  induction hpath with
  | refl => exact hseeds s hsm hgs
  | tail _ hstep ih => exact hclosed _ ih _ hstep.2 hstep.1

lemma bfs_some (inB ok : Coord → Bool) (grid : Finset Coord)
    (hB : ∀ c, inB c = true → c ∈ grid) :
    ∀ fuel (queue : List Coord) (vis : Finset Coord), vis ⊆ grid →
      queue.length + 5 * (grid.card - vis.card) ≤ fuel →
      (bfsRun inB ok fuel queue vis).isSome = true := by
  intro fuel
  induction fuel with
  | zero =>
      intro queue vis _ hfuel
      cases queue with
      | nil => simp [bfsRun]
      | cons c q => simp at hfuel
  | succ n ih =>
      intro queue vis hsub hfuel
      cases queue with
      | nil => simp [bfsRun]
      | cons c q =>
          rw [bfsRun]
          split_ifs with h1 h2 h3
          · exact ih q vis hsub (by simp at hfuel ⊢; omega)
          · exact ih q vis hsub (by simp at hfuel ⊢; omega)
          · exact ih q vis hsub (by simp at hfuel ⊢; omega)
          · have hcg : c ∈ grid := hB c (by simpa using h2)
            have hlt : vis.card < grid.card :=
              Finset.card_lt_card (Finset.ssubset_iff_of_subset hsub |>.mpr ⟨c, hcg, h1⟩)
            have hcard : (insert c vis).card = vis.card + 1 := Finset.card_insert_of_not_mem h1
            refine ih (q ++ nbrs c) (insert c vis) (Finset.insert_subset hcg hsub) ?_
            simp [hcard, nbrs] at hfuel ⊢
            omega

lemma mem_border_seeds_all {w h : ℕ} {c : Coord} :
    c ∈ border_seeds_all w h ∧ inBounds w h c = true ↔ IsBorder w h c := by
  obtain ⟨cx, cy⟩ := c
  simp only [border_seeds_all, IsBorder, inBounds, List.mem_append, List.mem_flatMap,
    List.mem_range, List.mem_cons, List.mem_singleton, List.not_mem_nil, or_false,
    Bool.and_eq_true, decide_eq_true_eq, Prod.mk.injEq]
  constructor
  · rintro ⟨hm, hb⟩
    refine ⟨hb, ?_⟩
    rcases hm with ⟨x, hx, ⟨h1, h2⟩ | ⟨h1, h2⟩⟩ | ⟨y, hy, ⟨h1, h2⟩ | ⟨h1, h2⟩⟩ <;> omega
  · rintro ⟨⟨⟨⟨hx0, hxw⟩, hy0⟩, hyh⟩, hedge⟩
    refine ⟨?_, ⟨⟨⟨hx0, hxw⟩, hy0⟩, hyh⟩⟩
    rcases hedge with h | h | h | h
    · exact Or.inr ⟨cy.toNat, by omega, Or.inl ⟨by omega, by omega⟩⟩
    · exact Or.inr ⟨cy.toNat, by omega, Or.inr ⟨by omega, by omega⟩⟩
    · exact Or.inl ⟨cx.toNat, by omega, Or.inl ⟨by omega, by omega⟩⟩
    · exact Or.inl ⟨cx.toNat, by omega, Or.inr ⟨by omega, by omega⟩⟩

lemma make_transparent_flood_run_isSome (img : Raster) (bg : RGB) (tolerance threshold : ℕ) :
    (make_transparent_flood_run img bg tolerance threshold).isSome = true := by
  refine bfs_some _ _ (gridFinset img.w img.h) (fun c hc => mem_gridFinset.mpr hc) _ _ _
    (Finset.empty_subset _) ?_
  simp [flood_fuel, card_gridFinset]

lemma flood_fill_background_run_isSome (img : Raster) (bg : RGB) :
    (flood_fill_background_run img bg).isSome = true := by
  refine bfs_some _ _ (gridFinset img.w img.h) (fun c hc => mem_gridFinset.mpr hc) _ _ _
    (Finset.empty_subset _) ?_
  simp [flood_fuel, card_gridFinset]

lemma smart_ok_eq_true {img : Raster} {bg : RGB} {tolerance threshold : ℕ} {c : Coord} :
    smart_ok img bg tolerance threshold c = true ↔
      is_dark (img.pix c) threshold = false ∧
        color_dist_lt (img.pix c).rgb bg tolerance = true := by
  simp [smart_ok, Bool.and_eq_true, Bool.not_eq_true']

/-- Claim C1.  The removal set produced by the flood-fill stage of
`make_transparent` is exactly the set of in-bounds coordinates whose pixel is
not an outline (dark) pixel, matches the background color within the
tolerance, and is reachable from some border pixel through a 4-connected
chain of such matching non-outline pixels (the border pixel itself
included).  In particular a background-colored island with no such
border-connected chain is absent from the output. -/
theorem make_transparent_flood_exact (img : Raster) (bg : RGB) (tolerance threshold : ℕ)
    (c : Coord) :
    c ∈ make_transparent_flood img bg tolerance threshold ↔
      inBounds img.w img.h c = true ∧
        is_dark (img.pix c) threshold = false ∧
        color_dist_lt (img.pix c).rgb bg tolerance = true ∧
        ∃ s, IsBorder img.w img.h s ∧
          Good (inBounds img.w img.h) (smart_ok img bg tolerance threshold) s ∧
          Relation.ReflTransGen
            (GoodStep (inBounds img.w img.h) (smart_ok img bg tolerance threshold)) s c := by
  obtain ⟨res, hres⟩ :=
    Option.isSome_iff_exists.mp (make_transparent_flood_run_isSome img bg tolerance threshold)
  have heq : make_transparent_flood img bg tolerance threshold = res := by
    simp [make_transparent_flood, hres]
  simp only [make_transparent_flood_run] at hres
  rw [heq]
  constructor
  · intro hc
    have hreach : ReachFrom (inBounds img.w img.h) (smart_ok img bg tolerance threshold)
        (border_seeds_all img.w img.h) c :=
      bfs_sound _ _ (border_seeds_all img.w img.h) _ _ _ _ (by simp)
        (fun q hq => Or.inl hq) hres c hc
    have hgood := reach_good hreach
    obtain ⟨s, hsmem, hgs, hpath⟩ := hreach
    have hok := smart_ok_eq_true.mp hgood.2
    exact ⟨hgood.1, hok.1, hok.2, s, mem_border_seeds_all.mp ⟨hsmem, hgs.1⟩, hgs, hpath⟩
  · rintro ⟨hin, hdark, hdist, s, hsb, hgs, hpath⟩
    have hcomp := bfs_complete _ _ (border_seeds_all img.w img.h) _ _ _ _ (by simp)
      (fun t ht _ => Or.inr ht) hres
    exact bfs_reach_mem hcomp.1 hcomp.2 ⟨s, (mem_border_seeds_all.mpr hsb).1, hgs, hpath⟩

/-- Claim C3, counterexample.  The claim quantifies over every raster and
background color and cites `flood_fill_background`, which applies no
dark-pixel predicate: on a 1 by 1 raster holding the opaque dark pixel
(10,10,10) with background color (0,0,0), the flood-fill stage adds the dark
pixel to the removal set. -/
theorem flood_fill_background_adds_dark_pixel :
    ((0 : ℤ), (0 : ℤ)) ∈ flood_fill_background imgDark1 ⟨0, 0, 0⟩ ∧
      is_dark (imgDark1.pix ((0 : ℤ), (0 : ℤ))) 50 = true := by decide

/-- Claim C3, amended.  The flood-fill stage of `make_transparent` (the one
that applies the dark-outline predicate) never adds a coordinate whose pixel
is dark, regardless of how closely its color matches the background color. -/
theorem make_transparent_flood_never_dark (img : Raster) (bg : RGB) (tolerance threshold : ℕ)
    (c : Coord) (hc : c ∈ make_transparent_flood img bg tolerance threshold) :
    is_dark (img.pix c) threshold = false := by
  obtain ⟨res, hres⟩ :=
    Option.isSome_iff_exists.mp (make_transparent_flood_run_isSome img bg tolerance threshold)
  have heq : make_transparent_flood img bg tolerance threshold = res := by
    simp [make_transparent_flood, hres]
  simp only [make_transparent_flood_run] at hres
  rw [heq] at hc
  rcases bfs_res_good _ _ _ _ _ _ hres c hc with h | h
  · exact absurd h (Finset.not_mem_empty c)
  · exact (smart_ok_eq_true.mp h.2).1

/-- Claim C3, witness for the amended theorem at a concrete input: the white
1 by 1 raster, whose single cell the flood fill removes. -/
theorem make_transparent_flood_never_dark_witness :
    ((0 : ℤ), (0 : ℤ)) ∈ make_transparent_flood imgWhite1 ⟨255, 255, 255⟩ 10 50 ∧
      is_dark (imgWhite1.pix ((0 : ℤ), (0 : ℤ))) 50 = false :=
  ⟨by decide, make_transparent_flood_never_dark imgWhite1 ⟨255, 255, 255⟩ 10 50 _ (by decide)⟩

/-- Claim C5.  Both flood-fill loops terminate on every finite raster: run
with the declared fuel, the loop consumes its whole queue and returns a
result (`some`), for every raster, background color, tolerance and
threshold.  The fuel argument of `bfsRun` decreases at every pop, skipped or
expanded, and the accounting of `bfs_some` shows the declared fuel is never
exhausted even though walls are re-enqueued without being marked visited. -/
theorem flood_fill_terminates (img : Raster) (bg : RGB) (tolerance threshold : ℕ) :
    (make_transparent_flood_run img bg tolerance threshold).isSome = true ∧
      (flood_fill_background_run img bg).isSome = true :=
  ⟨make_transparent_flood_run_isSome img bg tolerance threshold,
    flood_fill_background_run_isSome img bg⟩

lemma fringe_loop_superset (cand : Finset Coord → Finset Coord) :
    ∀ n (R : Finset Coord), R ⊆ fringe_loop cand n R := by
  intro n
  induction n with
  | zero => intro R; exact fun x hx => hx
  | succ m ih =>
      intro R
      rw [fringe_loop]
      split
      · exact fun x hx => hx
      · exact fun x hx => ih (R ∪ cand R) (Finset.mem_union_left _ hx)

lemma fringe_loop_pass_mono (cand : Finset Coord → Finset Coord) :
    ∀ n (R : Finset Coord), fringe_loop cand n R ⊆ fringe_loop cand (n + 1) R := by
  intro n
  induction n with
  | zero => intro R; exact fringe_loop_superset cand 1 R
  | succ m ih =>
      intro R
      by_cases hc : cand R = ∅
      · rw [fringe_loop, fringe_loop, if_pos hc, if_pos hc]
      · rw [fringe_loop, if_neg hc]
        conv_rhs => rw [fringe_loop, if_neg hc]
        exact ih (R ∪ cand R)

lemma fringe_loop_mono (cand : Finset Coord → Finset Coord) {m n : ℕ} (hmn : m ≤ n)
    (R : Finset Coord) : fringe_loop cand m R ⊆ fringe_loop cand n R := by
  induction n with
  | zero =>
      have : m = 0 := Nat.le_zero.mp hmn
      rw [this]
  | succ k ih =>
      rcases Nat.lt_or_ge m (k + 1) with h | h
      · exact (ih (Nat.lt_succ_iff.mp h)).trans (fringe_loop_pass_mono cand k R)
      · have : m = k + 1 := Nat.le_antisymm hmn h
        rw [this]

/-- Claim C2.  The removal set only grows: the result of fringe resolution
contains its input removal set for every pass count, later pass counts yield
supersets of earlier ones (so a coordinate once added stays for the rest of
the invocation), and this holds both for `remove_fringe` (its hard-coded
single pass included) and for the fringe stage of `make_transparent`. -/
theorem remove_fringe_monotone (img : Raster) (bg : RGB) (R : Finset Coord) :
    (∀ passes, R ⊆ remove_fringe_passes img R bg passes) ∧
      (∀ m n, m ≤ n →
        remove_fringe_passes img R bg m ⊆ remove_fringe_passes img R bg n) ∧
      R ⊆ remove_fringe img R bg ∧
      (∀ fringe_tolerance passes, R ⊆ make_transparent_fringe img R bg fringe_tolerance passes) :=
  ⟨fun passes => fringe_loop_superset _ passes R,
    fun _ _ hmn => fringe_loop_mono _ hmn R,
    fringe_loop_superset _ 1 R,
    fun _ passes => fringe_loop_superset _ passes R⟩

/-- Claim C2, witness at a concrete input: pass counts 1 and 2 on the white
1 by 1 raster and a removal set holding one coordinate. -/
theorem remove_fringe_monotone_witness :
    1 ≤ 2 ∧ remove_fringe_passes imgWhite1 {((0 : ℤ), (0 : ℤ))} ⟨255, 255, 255⟩ 1 ⊆
      remove_fringe_passes imgWhite1 {((0 : ℤ), (0 : ℤ))} ⟨255, 255, 255⟩ 2 :=
  ⟨by decide,
    (remove_fringe_monotone imgWhite1 ⟨255, 255, 255⟩ {((0 : ℤ), (0 : ℤ))}).2.1 1 2 (by decide)⟩

lemma bfs_no_match (inB ok : Coord → Bool) (hok : ∀ c, inB c = true → ok c = false) :
    ∀ fuel (queue : List Coord) (vis : Finset Coord), queue.length ≤ fuel →
      bfsRun inB ok fuel queue vis = some vis := by
  intro fuel
  induction fuel with
  | zero =>
      intro queue vis hlen
      cases queue with
      | nil => rfl
      | cons c q => simp at hlen
  | succ n ih =>
      intro queue vis hlen
      cases queue with
      | nil => rfl
      | cons c q =>
          rw [bfsRun]
          split_ifs with h1 h2 h3
          · exact ih q vis (by simp at hlen; omega)
          · exact ih q vis (by simp at hlen; omega)
          · exact ih q vis (by simp at hlen; omega)
          · exact absurd (hok c (by simpa using h2)) h3

/-- Claim C8.  On a raster in which every pixel within the flood-fill
tolerance of the background color is already fully transparent, the
flood-fill stage returns the empty removal set and the fringe stage run on
that empty set adds nothing: no coordinate is added by either stage. -/
theorem flood_and_fringe_empty_on_transparent (img : Raster) (bg : RGB)
    (H : ∀ x, x < img.w → ∀ y, y < img.h →
      color_dist_lt (img.pix ((x : ℤ), (y : ℤ))).rgb bg TOLERANCE = true →
      (img.pix ((x : ℤ), (y : ℤ))).a = 0) :
    flood_fill_background img bg = ∅ ∧ remove_fringe img ∅ bg = ∅ := by
  have hok : ∀ c : Coord, inBounds img.w img.h c = true →
      is_target_color (img.pix c) bg TOLERANCE = false := by
    rintro ⟨cx, cy⟩ hc
    simp only [inBounds, Bool.and_eq_true, decide_eq_true_eq] at hc
    obtain ⟨⟨⟨hx0, hxw⟩, hy0⟩, hyh⟩ := hc
    have hx : ((cx.toNat : ℤ), (cy.toNat : ℤ)) = ((cx, cy) : Coord) := by
      simp only [Prod.mk.injEq]
      constructor <;> omega
    have H' := H cx.toNat (by omega) cy.toNat (by omega)
    rw [hx] at H'
    unfold is_target_color
    split_ifs with ha
    · rfl
    · cases hb : color_dist_lt (img.pix (cx, cy)).rgb bg TOLERANCE
      · rfl
      · exact absurd (H' hb) ha
  constructor
  · have hrun : flood_fill_background_run img bg = some ∅ := by
      simp only [flood_fill_background_run]
      exact bfs_no_match _ _ hok _ _ _ (Nat.le_add_right _ _)
    simp [flood_fill_background, hrun]
  · simp [remove_fringe, remove_fringe_passes, fringe_loop, fringe_candidates]

/-- Claim C8, witness: the fully transparent 1 by 1 raster with an arbitrary
background color. -/
theorem flood_and_fringe_empty_on_transparent_witness :
    (∀ x, x < imgTrans1.w → ∀ y, y < imgTrans1.h →
      color_dist_lt (imgTrans1.pix ((x : ℤ), (y : ℤ))).rgb ⟨255, 0, 255⟩ TOLERANCE = true →
      (imgTrans1.pix ((x : ℤ), (y : ℤ))).a = 0) ∧
      (flood_fill_background imgTrans1 ⟨255, 0, 255⟩ = ∅ ∧
        remove_fringe imgTrans1 ∅ ⟨255, 0, 255⟩ = ∅) :=
  ⟨by decide, flood_and_fringe_empty_on_transparent imgTrans1 ⟨255, 0, 255⟩ (by decide)⟩

lemma lightness_eq (c : RGB) :
    lightness c =
      (min ((c.r : ℚ) / 255) (min ((c.g : ℚ) / 255) ((c.b : ℚ) / 255)) +
        max ((c.r : ℚ) / 255) (max ((c.g : ℚ) / 255) ((c.b : ℚ) / 255))) / 2 := by
  unfold lightness rgb_to_hls
  dsimp only
  split <;> rfl

lemma is_dark_lightness_le {p : Pixel} (hd : is_dark p 50 = true) :
    lightness p.rgb ≤ 49 / 255 := by
  simp only [is_dark, Bool.and_eq_true, decide_eq_true_eq] at hd
  obtain ⟨⟨hr, hg⟩, hb⟩ := hd
  have hr' : ((p.rgb.r : ℚ)) / 255 ≤ 49 / 255 := by
    have h : (p.rgb.r : ℚ) ≤ 49 := by exact_mod_cast Nat.lt_succ_iff.mp hr
    gcongr
  have hg' : ((p.rgb.g : ℚ)) / 255 ≤ 49 / 255 := by
    have h : (p.rgb.g : ℚ) ≤ 49 := by exact_mod_cast Nat.lt_succ_iff.mp hg
    gcongr
  have hb' : ((p.rgb.b : ℚ)) / 255 ≤ 49 / 255 := by
    have h : (p.rgb.b : ℚ) ≤ 49 := by exact_mod_cast Nat.lt_succ_iff.mp hb
    gcongr
  rw [lightness_eq]
  have hmax : max ((p.rgb.r : ℚ) / 255) (max ((p.rgb.g : ℚ) / 255) ((p.rgb.b : ℚ) / 255)) ≤
      49 / 255 := max_le hr' (max_le hg' hb')
  have hmin : min ((p.rgb.r : ℚ) / 255) (min ((p.rgb.g : ℚ) / 255) ((p.rgb.b : ℚ) / 255)) ≤
      49 / 255 := le_trans (min_le_left _ _) hr'
  linarith

lemma not_dark_of_lightness {p : Pixel} (hl : 1 / 5 < lightness p.rgb) :
    is_dark p 50 = false := by
  cases h' : is_dark p 50
  · rfl
  · have h1 := is_dark_lightness_le h'
    have h2 : (49 : ℚ) / 255 < 1 / 5 := by norm_num
    linarith

/-- Claim C4, counterexample.  The claim states the two fringe rules as an
exact characterization, but the source rejects fully transparent pixels
before either rule: a transparent pixel whose RGB equals the background color
satisfies rule (a) yet is not classified as fringe. -/
theorem fringe_claim_fails_on_transparent_pixel :
    ¬ (is_fringe_pixel ⟨10, 20, 30, 0⟩ ⟨10, 20, 30⟩ (rgb_to_hue ⟨10, 20, 30⟩) = true ↔
        fringe_two_rules ⟨10, 20, 30, 0⟩ ⟨10, 20, 30⟩) := by decide

/-- Claim C4, amended.  For a pixel that is not fully transparent,
`is_fringe_pixel` holds iff (a) its RGB distance to the background color is
below 40, or (b) its distance is below `FRINGE_TOLERANCE`, it is not an
outline pixel, its hue and the background hue are defined and within
`HUE_TOLERANCE` of each other circularly, and its saturation and lightness
exceed 0.25 and 0.2.  The outline conjunct of rule (b) is not tested by the
source text but is implied by the lightness floor. -/
theorem is_fringe_pixel_two_rules (p : Pixel) (bg : RGB) (ha : p.a ≠ 0) :
    is_fringe_pixel p bg (rgb_to_hue bg) = true ↔ fringe_two_rules p bg := by
  unfold is_fringe_pixel fringe_two_rules
  rw [if_neg ha]
  by_cases h40 : color_dist_lt p.rgb bg 40 = true
  · rw [if_pos h40]
    simp [h40]
  · rw [if_neg h40]
    by_cases h55 : color_dist_lt p.rgb bg FRINGE_TOLERANCE = true
    · rw [if_pos h55]
      cases hph : rgb_to_hue p.rgb with
      | none =>
          constructor
          · intro h
            simp at h
          · rintro (h | ⟨_, _, hlt, _, _⟩)
            · exact absurd h h40
            · norm_num [hue_distance_opt, HUE_TOLERANCE] at hlt
      | some ph =>
          cases hbh : rgb_to_hue bg with
          | none =>
              constructor
              · intro h
                simp at h
              · rintro (h | ⟨_, _, hlt, _, _⟩)
                · exact absurd h h40
                · norm_num [hue_distance_opt, HUE_TOLERANCE] at hlt
          | some bh =>
              dsimp only
              by_cases hhd : hue_distance ph bh < HUE_TOLERANCE
              · rw [if_pos hhd]
                simp only [hue_distance_opt, Bool.and_eq_true, decide_eq_true_eq]
                constructor
                · rintro ⟨hs, hl⟩
                  exact Or.inr ⟨h55, not_dark_of_lightness hl, hhd, hs, hl⟩
                · rintro (h | ⟨_, _, _, hs, hl⟩)
                  · exact absurd h h40
                  · exact ⟨hs, hl⟩
              · rw [if_neg hhd]
                simp only [hue_distance_opt]
                constructor
                · intro h
                  exact Bool.noConfusion h
                · rintro (h | ⟨_, _, hlt, _, _⟩)
                  · exact absurd h h40
                  · exact absurd hlt hhd
    · rw [if_neg h55]
      constructor
      · intro h
        exact Bool.noConfusion h
      · rintro (h | ⟨h', _, _, _, _⟩)
        · exact absurd h h40
        · exact absurd h' h55

/-- Claim C4, witness for the amended theorem: a concrete opaque pixel and
background color. -/
theorem is_fringe_pixel_two_rules_witness :
    (⟨200, 50, 50, 255⟩ : Pixel).a ≠ 0 ∧
      (is_fringe_pixel ⟨200, 50, 50, 255⟩ ⟨10, 20, 30⟩ (rgb_to_hue ⟨10, 20, 30⟩) = true ↔
        fringe_two_rules ⟨200, 50, 50, 255⟩ ⟨10, 20, 30⟩) :=
  ⟨by decide, is_fringe_pixel_two_rules ⟨200, 50, 50, 255⟩ ⟨10, 20, 30⟩ (by decide)⟩

lemma mem_scan_coords {w h : ℕ} {c : Coord} :
    c ∈ scan_coords w h ↔ inBounds w h c = true := by
  obtain ⟨cx, cy⟩ := c
  constructor
  · intro hm
    rw [scan_coords, List.mem_flatMap] at hm
    obtain ⟨y, hy, hmem⟩ := hm
    rw [List.mem_map] at hmem
    obtain ⟨x, hx, hxy⟩ := hmem
    rw [List.mem_range] at hy
    rw [List.mem_range] at hx
    rw [Prod.mk.injEq] at hxy
    obtain ⟨h1, h2⟩ := hxy
    simp only [inBounds, Bool.and_eq_true, decide_eq_true_eq]
    refine ⟨⟨⟨?_, ?_⟩, ?_⟩, ?_⟩ <;> omega
  · intro hb
    simp only [inBounds, Bool.and_eq_true, decide_eq_true_eq] at hb
    obtain ⟨⟨⟨hx0, hxw⟩, hy0⟩, hyh⟩ := hb
    rw [scan_coords, List.mem_flatMap]
    refine ⟨cy.toNat, ?_, ?_⟩
    · rw [List.mem_range]
      omega
    · rw [List.mem_map]
      refine ⟨cx.toNat, ?_, ?_⟩
      · rw [List.mem_range]
        omega
      · rw [Prod.mk.injEq]
        constructor <;> omega

lemma clusters_loop_spec (inB ok : Coord → Bool) (grid : Finset Coord)
    (hB : ∀ c, inB c = true → c ∈ grid) (fuel : ℕ) (hfuel : 1 + 5 * grid.card ≤ fuel) :
    ∀ (l : List Coord) (vis : Finset Coord), vis ⊆ grid →
      (∀ v ∈ vis, ∀ x, Adj v x → Good inB ok x → x ∈ vis) →
      (clusters_loop inB ok fuel l vis).2 ⊆ grid ∧
      (∀ x ∈ (clusters_loop inB ok fuel l vis).2, x ∈ vis ∨ Good inB ok x) ∧
      (∀ v ∈ (clusters_loop inB ok fuel l vis).2, ∀ x, Adj v x → Good inB ok x →
        x ∈ (clusters_loop inB ok fuel l vis).2) ∧
      (∀ cl ∈ (clusters_loop inB ok fuel l vis).1, cl.Nonempty ∧ Disjoint cl vis) ∧
      List.Pairwise Disjoint (clusters_loop inB ok fuel l vis).1 ∧
      (∀ x, x ∈ (clusters_loop inB ok fuel l vis).2 ↔
        x ∈ vis ∨ ∃ cl ∈ (clusters_loop inB ok fuel l vis).1, x ∈ cl) ∧
      (∀ c ∈ l, Good inB ok c → c ∈ (clusters_loop inB ok fuel l vis).2) := by
  intro l
  induction l with
  | nil =>
      intro vis hsub hclosed
      rw [clusters_loop]
      refine ⟨hsub, fun x hx => Or.inl hx, hclosed, by simp, List.Pairwise.nil, ?_, by simp⟩
      intro x
      constructor
      · exact fun hx => Or.inl hx
      · rintro (hx | ⟨cl, hcl, _⟩)
        · exact hx
        · exact absurd hcl (List.not_mem_nil _)
  | cons c rest ih =>
      intro vis hsub hclosed
      rw [clusters_loop]
      split_ifs with h1 h2
      · obtain ⟨hg, hmem, hcl, hclus, hpw, hiff, hscan⟩ := ih vis hsub hclosed
        refine ⟨hg, hmem, hcl, hclus, hpw, hiff, ?_⟩
        rintro e he hGe
        rcases List.mem_cons.mp he with rfl | he'
        · exact (hiff e).mpr (Or.inl h1)
        · exact hscan e he' hGe
      · obtain ⟨hg, hmem, hcl, hclus, hpw, hiff, hscan⟩ := ih vis hsub hclosed
        refine ⟨hg, hmem, hcl, hclus, hpw, hiff, ?_⟩
        rintro e he hGe
        rcases List.mem_cons.mp he with rfl | he'
        · exact absurd hGe.2 (by simp [h2])
        · exact hscan e he' hGe
      · have hfuel' : 1 + 5 * (grid.card - vis.card) ≤ fuel := by
          have h := Finset.card_le_card hsub
          omega
        have hsome := bfs_some inB ok grid hB fuel [c] vis hsub (by simpa using hfuel')
        obtain ⟨vis2, hvis2⟩ := Option.isSome_iff_exists.mp hsome
        have hrw : (bfsRun inB ok fuel [c] vis).getD vis = vis2 := by rw [hvis2]; rfl
        have hmono : vis ⊆ vis2 := bfs_mono _ _ _ _ _ _ hvis2
        have hresg : ∀ x ∈ vis2, x ∈ vis ∨ Good inB ok x := bfs_res_good _ _ _ _ _ _ hvis2
        have hsub' : vis2 ⊆ grid := fun x hx =>
          (hresg x hx).elim (fun hx' => hsub hx') (fun hx' => hB x hx'.1)
        have hcomp := bfs_complete inB ok [c] fuel [c] vis vis2
          (fun v hv x hadj hg => Or.inl (hclosed v hv x hadj hg))
          (fun s hs _ => Or.inr hs) hvis2
        have hclosed' : ∀ v ∈ vis2, ∀ x, Adj v x → Good inB ok x → x ∈ vis2 := hcomp.2
        obtain ⟨hg', hmem', hcl', hclus', hpw', hiff', hscan'⟩ := ih vis2 hsub' hclosed'
        have hsplit : ∀ x, x ∈ vis2 ↔ x ∈ vis ∨ x ∈ vis2 \ vis := by
          intro x
          constructor
          · intro hx
            by_cases hxv : x ∈ vis
            · exact Or.inl hxv
            · exact Or.inr (Finset.mem_sdiff.mpr ⟨hx, hxv⟩)
          · rintro (hx | hx)
            · exact hmono hx
            · exact (Finset.mem_sdiff.mp hx).1
        simp only [hrw]
        by_cases hce : vis2 \ vis = ∅
        · have hveq : vis2 = vis :=
            Finset.Subset.antisymm (Finset.sdiff_eq_empty_iff_subset.mp hce) hmono
          rw [if_pos hce]
          subst hveq
          refine ⟨hg', hmem', hcl', hclus', hpw', hiff', ?_⟩
          rintro e he hGe
          rcases List.mem_cons.mp he with rfl | he'
          · exact (hiff' e).mpr (Or.inl (hcomp.1 e (List.mem_cons_self e []) hGe))
          · exact hscan' e he' hGe
        · rw [if_neg hce]
          refine ⟨hg', ?_, hcl', ?_, ?_, ?_, ?_⟩
          · intro x hx
            rcases hmem' x hx with hx' | hx'
            · exact hresg x hx'
            · exact Or.inr hx'
          · intro cl hclm
            rcases List.mem_cons.mp hclm with rfl | hclm'
            · exact ⟨Finset.nonempty_iff_ne_empty.mpr hce, Finset.sdiff_disjoint⟩
            · exact ⟨(hclus' cl hclm').1,
                Finset.disjoint_of_subset_right hmono (hclus' cl hclm').2⟩
          · refine List.Pairwise.cons ?_ hpw'
            intro cl hclm
            exact Finset.disjoint_of_subset_left Finset.sdiff_subset ((hclus' cl hclm).2).symm
          · intro x
            rw [hiff' x]
            constructor
            · rintro (hx | ⟨cl, hclm, hxm⟩)
              · rcases (hsplit x).mp hx with hx' | hx'
                · exact Or.inl hx'
                · exact Or.inr ⟨vis2 \ vis, List.mem_cons_self _ _, hx'⟩
              · exact Or.inr ⟨cl, List.mem_cons_of_mem _ hclm, hxm⟩
            · rintro (hx | ⟨cl, hclm, hxm⟩)
              · exact Or.inl (hmono hx)
              · rcases List.mem_cons.mp hclm with rfl | hclm'
                · exact Or.inl ((hsplit x).mpr (Or.inr hxm))
                · exact Or.inr ⟨cl, hclm', hxm⟩
          · rintro e he hGe
            rcases List.mem_cons.mp he with rfl | he'
            · exact (hiff' e).mpr (Or.inl (hcomp.1 e (List.mem_cons_self e []) hGe))
            · exact hscan' e he' hGe

lemma clusters_loop_partition (w h : ℕ) (ok : Coord → Bool) :
    (∀ cl ∈ (clusters_loop (inBounds w h) ok (cluster_fuel w h) (scan_coords w h) ∅).1,
        cl.Nonempty) ∧
      List.Pairwise Disjoint
        (clusters_loop (inBounds w h) ok (cluster_fuel w h) (scan_coords w h) ∅).1 ∧
      ∀ c : Coord,
        (∃ cl ∈ (clusters_loop (inBounds w h) ok (cluster_fuel w h) (scan_coords w h) ∅).1,
            c ∈ cl) ↔
          inBounds w h c = true ∧ ok c = true := by
  obtain ⟨hg, hmem, hcl, hclus, hpw, hiff, hscan⟩ :=
    clusters_loop_spec (inBounds w h) ok (gridFinset w h) (fun c hc => mem_gridFinset.mpr hc)
      (cluster_fuel w h) (by simp [cluster_fuel, card_gridFinset]) (scan_coords w h) ∅
      (Finset.empty_subset _) (by simp)
  refine ⟨fun cl hc => (hclus cl hc).1, hpw, ?_⟩
  intro c
  constructor
  · rintro ⟨cl, hclm, hcm⟩
    have hc2 := (hiff c).mpr (Or.inr ⟨cl, hclm, hcm⟩)
    rcases hmem c hc2 with hfalse | hgood
    · exact absurd hfalse (Finset.not_mem_empty c)
    · exact hgood
  · rintro ⟨hin, hok⟩
    have hc2 := hscan c (mem_scan_coords.mpr hin) ⟨hin, hok⟩
    rcases (hiff c).mp hc2 with hfalse | hex
    · exact absurd hfalse (Finset.not_mem_empty c)
    · exact hex

/-- Claim C10.  Both cluster finders return a partition of the matching
pixels: every returned cluster is non-empty, the clusters are pairwise
disjoint, and a coordinate lies in some cluster exactly when it is in bounds
and its pixel is non-transparent and matches a target color. -/
theorem find_clusters_partition (img : Raster) :
    ((∀ cl ∈ find_colored_clusters img, cl.Nonempty) ∧
        List.Pairwise Disjoint (find_colored_clusters img) ∧
        ∀ c : Coord, (∃ cl ∈ find_colored_clusters img, c ∈ cl) ↔
          inBounds img.w img.h c = true ∧ matches_any_target (img.pix c) = true) ∧
      (∀ cl ∈ find_yellow_clusters img, cl.Nonempty) ∧
        List.Pairwise Disjoint (find_yellow_clusters img) ∧
        ∀ c : Coord, (∃ cl ∈ find_yellow_clusters img, c ∈ cl) ↔
          inBounds img.w img.h c = true ∧ is_yellow (img.pix c) = true :=
  ⟨clusters_loop_partition img.w img.h fun c => matches_any_target (img.pix c),
    clusters_loop_partition img.w img.h fun c => is_yellow (img.pix c)⟩

/-- Claim C6.  In cluster-removal mode, every cluster returned by the finder
whose size is at most the threshold has all of its pixels set to fully
transparent (0,0,0,0), and every cluster whose size strictly exceeds the
threshold has all of its pixels left unchanged. -/
theorem cleanup_image_cluster_rule (img : Raster) (max_cluster_size : ℕ)
    (cl : Finset Coord) (hcl : cl ∈ find_colored_clusters img) :
    (cl.card ≤ max_cluster_size →
      ∀ c ∈ cl, cleanup_image_pixels img max_cluster_size c = ⟨0, 0, 0, 0⟩) ∧
      (max_cluster_size < cl.card →
        ∀ c ∈ cl, cleanup_image_pixels img max_cluster_size c = img.pix c) := by
  constructor
  · intro hsize c hc
    have hany : ((find_colored_clusters img).any fun cl' =>
        decide (cl'.card ≤ max_cluster_size) && decide (c ∈ cl')) = true := by
      rw [List.any_eq_true]
      exact ⟨cl, hcl, by simp [hsize, hc]⟩
    simp [cleanup_image_pixels, hany]
  · intro hsize c hc
    have hpw := (clusters_loop_partition img.w img.h
      fun d => matches_any_target (img.pix d)).2.1
    have hany : ((find_colored_clusters img).any fun cl' =>
        decide (cl'.card ≤ max_cluster_size) && decide (c ∈ cl')) = false := by
      rw [List.any_eq_false]
      intro cl' hcl'
      by_cases hsz : cl'.card ≤ max_cluster_size
      · have hne : cl ≠ cl' := by
          intro he
          rw [he] at hsize
          omega
        have hdisj : Disjoint cl cl' :=
          hpw.forall (fun _ _ hd => hd.symm) hcl hcl' hne
        have hnc : c ∉ cl' := fun hc' => Finset.disjoint_left.mp hdisj hc hc'
        simp [hnc]
      · simp [hsz]
    simp [cleanup_image_pixels, hany]

/-- Claim C6, witness: on the 2 by 1 raster with one yellow pixel the single
cluster has size 1 and threshold 30, so its pixel is made transparent. -/
theorem cleanup_image_cluster_rule_witness :
    ({((0 : ℤ), (0 : ℤ))} ∈ find_colored_clusters imgYellowDot) ∧
      ({((0 : ℤ), (0 : ℤ))} : Finset Coord).card ≤ 30 ∧
      cleanup_image_pixels imgYellowDot 30 ((0 : ℤ), (0 : ℤ)) = ⟨0, 0, 0, 0⟩ :=
  ⟨by decide, by decide,
    (cleanup_image_cluster_rule imgYellowDot 30 {((0 : ℤ), (0 : ℤ))} (by decide)).1
      (by decide) ((0 : ℤ), (0 : ℤ)) (by decide)⟩

lemma mem_fringe_candidates {w h : ℕ} {dirs : List Coord} {fr : Coord → Bool}
    {removed : Finset Coord} {x : Coord} (hx : x ∈ fringe_candidates w h dirs fr removed) :
    fr x = true := by
  simp only [fringe_candidates, Finset.mem_biUnion, List.mem_toFinset, List.mem_filter,
    Bool.and_eq_true] at hx
  obtain ⟨c, _, _, ⟨_, _⟩, hfr⟩ := hx
  exact hfr

lemma fringe_loop_mem_src (cand : Finset Coord → Finset Coord) :
    ∀ n (R : Finset Coord) (x : Coord), x ∈ fringe_loop cand n R →
      x ∈ R ∨ ∃ S : Finset Coord, x ∈ cand S := by
  intro n
  induction n with
  | zero =>
      intro R x hx
      rw [fringe_loop] at hx
      exact Or.inl hx
  | succ m ih =>
      intro R x hx
      rw [fringe_loop] at hx
      split_ifs at hx with hc
      · exact Or.inl hx
      · rcases ih (R ∪ cand R) x hx with hmem | hmem
        · rcases Finset.mem_union.mp hmem with h | h
          · exact Or.inl h
          · exact Or.inr ⟨R, h⟩
        · exact Or.inr hmem

/-- Claim C9.  A fully transparent pixel fails all four matching predicates
of the flood-fill, fringe, and cluster stages; consequently its coordinate
never enters the flood-fill removal set, is never added by any number of
fringe passes, and lies in no cluster of either cluster finder. -/
theorem transparent_pixel_never_matches (img : Raster) (c : Coord) (target bg : RGB)
    (tolerance : ℕ) (bg_hue : Option ℚ) (R : Finset Coord) (passes : ℕ)
    (hp : (img.pix c).a = 0) :
    is_target_color (img.pix c) target tolerance = false ∧
      is_fringe_pixel (img.pix c) bg bg_hue = false ∧
      is_yellow (img.pix c) = false ∧
      matches_any_target (img.pix c) = false ∧
      c ∉ flood_fill_background img bg ∧
      (c ∈ remove_fringe_passes img R bg passes → c ∈ R) ∧
      (∀ cl ∈ find_colored_clusters img, c ∉ cl) ∧
      (∀ cl ∈ find_yellow_clusters img, c ∉ cl) := by
  have h1 : is_target_color (img.pix c) target tolerance = false := by
    unfold is_target_color
    rw [if_pos hp]
  have h2 : is_fringe_pixel (img.pix c) bg bg_hue = false := by
    unfold is_fringe_pixel
    rw [if_pos hp]
  have h3 : is_yellow (img.pix c) = false := by
    unfold is_yellow
    rw [if_pos hp]
  have h4 : matches_any_target (img.pix c) = false := by
    unfold matches_any_target
    rw [if_pos hp]
  refine ⟨h1, h2, h3, h4, ?_, ?_, ?_, ?_⟩
  · intro hc
    obtain ⟨res, hres⟩ := Option.isSome_iff_exists.mp (flood_fill_background_run_isSome img bg)
    have heq : flood_fill_background img bg = res := by
      simp [flood_fill_background, hres]
    simp only [flood_fill_background_run] at hres
    rw [heq] at hc
    rcases bfs_res_good _ _ _ _ _ _ hres c hc with h | h
    · exact absurd h (Finset.not_mem_empty c)
    · have := h.2
      simp only [is_target_color, hp, if_pos] at this
      exact Bool.noConfusion this
  · intro hc
    rcases fringe_loop_mem_src _ passes R c hc with h | ⟨S, hS⟩
    · exact h
    · have := mem_fringe_candidates hS
      have h2' : is_fringe_pixel (img.pix c) bg (rgb_to_hue bg) = false := by
        unfold is_fringe_pixel
        rw [if_pos hp]
      rw [h2'] at this
      exact Bool.noConfusion this
  · intro cl hclm hcm
    have hall := (clusters_loop_partition img.w img.h
      fun d => matches_any_target (img.pix d)).2.2 c
    have := (hall.mp ⟨cl, hclm, hcm⟩).2
    rw [h4] at this
    exact Bool.noConfusion this
  · intro cl hclm hcm
    have hall := (clusters_loop_partition img.w img.h
      fun d => is_yellow (img.pix d)).2.2 c
    have := (hall.mp ⟨cl, hclm, hcm⟩).2
    rw [h3] at this
    exact Bool.noConfusion this

/-- Claim C9, witness: the fully transparent 1 by 1 raster at its only
coordinate. -/
theorem transparent_pixel_never_matches_witness :
    (imgTrans1.pix ((0 : ℤ), (0 : ℤ))).a = 0 ∧
      is_target_color (imgTrans1.pix ((0 : ℤ), (0 : ℤ))) ⟨9, 9, 9⟩ 45 = false ∧
      ((0 : ℤ), (0 : ℤ)) ∉ flood_fill_background imgTrans1 ⟨9, 9, 9⟩ :=
  ⟨rfl,
    (transparent_pixel_never_matches imgTrans1 ((0 : ℤ), (0 : ℤ)) ⟨9, 9, 9⟩ ⟨9, 9, 9⟩ 45 none ∅ 1
      rfl).1,
    (transparent_pixel_never_matches imgTrans1 ((0 : ℤ), (0 : ℤ)) ⟨9, 9, 9⟩ ⟨9, 9, 9⟩ 45 none ∅ 1
      rfl).2.2.2.2.1⟩

lemma mem_insertion_keys_aux :
    ∀ (l acc : List RGB) (x : RGB),
      x ∈ l.foldl (fun acc a => if a ∈ acc then acc else acc ++ [a]) acc ↔ x ∈ acc ∨ x ∈ l := by
  intro l
  induction l with
  | nil => intro acc x; simp
  | cons a l ih =>
      intro acc x
      rw [List.foldl_cons, ih]
      by_cases ha : a ∈ acc
      · rw [if_pos ha]
        constructor
        · rintro (h | h)
          · exact Or.inl h
          · exact Or.inr (List.mem_cons_of_mem a h)
        · rintro (h | h)
          · exact Or.inl h
          · rcases List.mem_cons.mp h with rfl | h'
            · exact Or.inl ha
            · exact Or.inr h'
      · rw [if_neg ha]
        constructor
        · rintro (h | h)
          · rcases List.mem_append.mp h with h' | h'
            · exact Or.inl h'
            · exact Or.inr (List.mem_cons.mpr (Or.inl (List.mem_singleton.mp h')))
          · exact Or.inr (List.mem_cons_of_mem a h)
        · rintro (h | h)
          · exact Or.inl (List.mem_append.mpr (Or.inl h))
          · rcases List.mem_cons.mp h with rfl | h'
            · exact Or.inl (List.mem_append.mpr (Or.inr (List.mem_singleton.mpr rfl)))
            · exact Or.inr h'

lemma mem_insertion_keys {l : List RGB} {x : RGB} : x ∈ insertion_keys l ↔ x ∈ l := by
  rw [insertion_keys, mem_insertion_keys_aux]
  simp

lemma foldl_pick_spec (l : List RGB) :
    ∀ (ks : List RGB) (k : RGB),
      (ks.foldl (fun best c => if l.count best < l.count c then c else best) k) ∈ k :: ks ∧
        ∀ x ∈ k :: ks, l.count x ≤
          l.count (ks.foldl (fun best c => if l.count best < l.count c then c else best) k) := by
  intro ks
  induction ks with
  | nil =>
      intro k
      refine ⟨List.mem_cons_self k [], ?_⟩
      intro x hx
      rcases List.mem_cons.mp hx with rfl | h
      · exact le_refl _
      · exact absurd h (List.not_mem_nil _)
  | cons a ks ih =>
      intro k
      rw [List.foldl_cons]
      by_cases hka : l.count k < l.count a
      · rw [if_pos hka]
        obtain ⟨hmem, hmax⟩ := ih a
        constructor
        · exact List.mem_cons_of_mem k hmem
        · intro x hx
          rcases List.mem_cons.mp hx with rfl | hx'
          · exact le_trans (le_of_lt hka) (hmax a (List.mem_cons_self a ks))
          · exact hmax x hx'
      · rw [if_neg hka]
        obtain ⟨hmem, hmax⟩ := ih k
        constructor
        · rcases List.mem_cons.mp hmem with h | h
          · rw [h]
            exact List.mem_cons_self k (a :: ks)
          · exact List.mem_cons_of_mem k (List.mem_cons_of_mem a h)
        · intro x hx
          rcases List.mem_cons.mp hx with rfl | hx'
          · exact hmax x (List.mem_cons_self x ks)
          · rcases List.mem_cons.mp hx' with rfl | hx''
            · exact le_trans (le_of_not_lt hka) (hmax k (List.mem_cons_self k ks))
            · exact hmax x (List.mem_cons_of_mem k hx'')

lemma most_common_spec {l : List RGB} {c : RGB} (h : most_common l = some c) :
    c ∈ l ∧ ∀ x ∈ l, l.count x ≤ l.count c := by
  unfold most_common at h
  cases hk : insertion_keys l with
  | nil => rw [hk] at h; exact absurd h (by simp)
  | cons k ks =>
      rw [hk] at h
      obtain ⟨hmem, hmax⟩ := foldl_pick_spec l ks k
      have hc := Option.some.inj h
      constructor
      · exact mem_insertion_keys.mp (hk ▸ (hc ▸ hmem))
      · intro x hx
        have hxk : x ∈ k :: ks := hk ▸ mem_insertion_keys.mpr hx
        exact hc ▸ hmax x hxk

lemma most_common_ne_none {l : List RGB} (hl : l ≠ []) : most_common l ≠ none := by
  unfold most_common
  cases hk : insertion_keys l with
  | nil =>
      obtain ⟨a, ha⟩ := List.exists_mem_of_ne_nil l hl
      have : a ∈ insertion_keys l := mem_insertion_keys.mpr ha
      rw [hk] at this
      exact absurd this (List.not_mem_nil a)
  | cons k ks => simp

lemma if_singleton_eq_nil {P : Prop} [Decidable P] {u : RGB} :
    (if P then [u] else []) = [] ↔ ¬P := by
  split_ifs with h
  · simp [h]
  · simp [h]

lemma edge_colors_eq_nil (img : Raster) (hw : 0 < img.w) (hh : 0 < img.h) :
    edge_colors img = [] ↔ ∀ c : Coord, IsBorder img.w img.h c → (img.pix c).a = 0 := by
  rw [edge_colors, List.append_eq_nil, List.flatMap_eq_nil_iff, List.flatMap_eq_nil_iff]
  constructor
  · rintro ⟨hx, hy⟩ ⟨cx, cy⟩ ⟨hin, hedge⟩
    simp only [inBounds, Bool.and_eq_true, decide_eq_true_eq] at hin
    obtain ⟨⟨⟨hx0, hxw⟩, hy0⟩, hyh⟩ := hin
    rcases hedge with h | h | h | h
    · have hlist := hy cy.toNat (by rw [List.mem_range]; omega)
      rw [List.append_eq_nil, if_singleton_eq_nil, if_singleton_eq_nil] at hlist
      have h0 := hlist.1
      have hco : ((0 : ℤ), (cy.toNat : ℤ)) = ((cx, cy) : Coord) := by
        rw [Prod.mk.injEq]
        constructor <;> omega
      rw [hco] at h0
      omega
    · have hlist := hy cy.toNat (by rw [List.mem_range]; omega)
      rw [List.append_eq_nil, if_singleton_eq_nil, if_singleton_eq_nil] at hlist
      have h0 := hlist.2
      have hco : ((img.w : ℤ) - 1, (cy.toNat : ℤ)) = ((cx, cy) : Coord) := by
        rw [Prod.mk.injEq]
        constructor <;> omega
      rw [hco] at h0
      omega
    · have hlist := hx cx.toNat (by rw [List.mem_range]; omega)
      rw [List.append_eq_nil, if_singleton_eq_nil, if_singleton_eq_nil] at hlist
      have h0 := hlist.1
      have hco : ((cx.toNat : ℤ), (0 : ℤ)) = ((cx, cy) : Coord) := by
        rw [Prod.mk.injEq]
        constructor <;> omega
      rw [hco] at h0
      omega
    · have hlist := hx cx.toNat (by rw [List.mem_range]; omega)
      rw [List.append_eq_nil, if_singleton_eq_nil, if_singleton_eq_nil] at hlist
      have h0 := hlist.2
      have hco : ((cx.toNat : ℤ), (img.h : ℤ) - 1) = ((cx, cy) : Coord) := by
        rw [Prod.mk.injEq]
        constructor <;> omega
      rw [hco] at h0
      omega
  · intro H
    constructor
    · intro x hxm
      rw [List.mem_range] at hxm
      rw [List.append_eq_nil, if_singleton_eq_nil, if_singleton_eq_nil]
      constructor
      · have hb : IsBorder img.w img.h ((x : ℤ), 0) := by
          refine ⟨?_, Or.inr (Or.inr (Or.inl rfl))⟩
          simp only [inBounds, Bool.and_eq_true, decide_eq_true_eq]
          refine ⟨⟨⟨?_, ?_⟩, ?_⟩, ?_⟩ <;> omega
        have := H _ hb
        omega
      · have hb : IsBorder img.w img.h ((x : ℤ), (img.h : ℤ) - 1) := by
          refine ⟨?_, Or.inr (Or.inr (Or.inr rfl))⟩
          simp only [inBounds, Bool.and_eq_true, decide_eq_true_eq]
          refine ⟨⟨⟨?_, ?_⟩, ?_⟩, ?_⟩ <;> omega
        have := H _ hb
        omega
    · intro y hym
      rw [List.mem_range] at hym
      rw [List.append_eq_nil, if_singleton_eq_nil, if_singleton_eq_nil]
      constructor
      · have hb : IsBorder img.w img.h ((0 : ℤ), (y : ℤ)) := by
          refine ⟨?_, Or.inl rfl⟩
          simp only [inBounds, Bool.and_eq_true, decide_eq_true_eq]
          refine ⟨⟨⟨?_, ?_⟩, ?_⟩, ?_⟩ <;> omega
        have := H _ hb
        omega
      · have hb : IsBorder img.w img.h ((img.w : ℤ) - 1, (y : ℤ)) := by
          refine ⟨?_, Or.inr (Or.inl rfl)⟩
          simp only [inBounds, Bool.and_eq_true, decide_eq_true_eq]
          refine ⟨⟨⟨?_, ?_⟩, ?_⟩, ?_⟩ <;> omega
        have := H _ hb
        omega

/-- Claim C7, counterexample.  On the 4 by 4 raster `img4` the estimator
samples the four corner cells twice, once per border traversal: the corner
color (1,1,1) collects 8 samples from 4 pixels and wins, although (2,2,2)
colors strictly more border pixels (5 against 4).  So the returned color is
not the most frequent color among the border pixels counted once each. -/
theorem detect_background_not_pixel_mode :
    detect_background_color img4 = some ⟨1, 1, 1⟩ ∧
      (border_pixel_colors img4).count ⟨1, 1, 1⟩ <
        (border_pixel_colors img4).count ⟨2, 2, 2⟩ := by decide

/-- Claim C7, amended.  For a raster with positive width and height, the
mode-variant estimator returns `None` exactly when every border pixel is
fully transparent, and otherwise returns a color that occurs in the edge
sample list (which counts a border cell once per traversal that visits it,
so corner cells twice) with multiplicity at least that of every other edge
sample. -/
theorem detect_background_spec (img : Raster) (hw : 0 < img.w) (hh : 0 < img.h) :
    (detect_background_color img = none ↔
        ∀ c : Coord, IsBorder img.w img.h c → (img.pix c).a = 0) ∧
      ∀ c : RGB, detect_background_color img = some c →
        c ∈ edge_colors img ∧
          ∀ d ∈ edge_colors img, (edge_colors img).count d ≤ (edge_colors img).count c := by
  unfold detect_background_color
  by_cases he : edge_colors img = []
  · rw [if_pos he]
    refine ⟨⟨fun _ => (edge_colors_eq_nil img hw hh).mp he, fun _ => rfl⟩, ?_⟩
    intro c hc
    exact absurd hc (by simp)
  · rw [if_neg he]
    constructor
    · constructor
      · intro hnone
        exact absurd hnone (most_common_ne_none he)
      · intro hall
        exact absurd ((edge_colors_eq_nil img hw hh).mpr hall) he
    · intro c hc
      exact most_common_spec hc

/-- Claim C7, witness for the amended theorem on the concrete raster `img4`,
whose estimator output is (1,1,1). -/
theorem detect_background_spec_witness :
    (0 < img4.w ∧ 0 < img4.h ∧ detect_background_color img4 = some ⟨1, 1, 1⟩) ∧
      (⟨1, 1, 1⟩ : RGB) ∈ edge_colors img4 ∧
        ∀ d ∈ edge_colors img4,
          (edge_colors img4).count d ≤ (edge_colors img4).count ⟨1, 1, 1⟩ :=
  ⟨⟨by decide, by decide, by decide⟩,
    (detect_background_spec img4 (by decide) (by decide)).2 ⟨1, 1, 1⟩ (by decide)⟩

end RadPinker
